import Mathlib

/-!
# Verification of ez-excel-mgt's cell-addressing and fill engine

Shallow embedding of the parts of the `ez-excel-mgt` Rust sources that the
verified properties are about:

* `src/utils/excel.rs` — the column-letter codec (`excel_col_to_index`,
  `index_to_excel_col`);
* `src/utils/aggregate.rs` — `aggregate_range`;
* `src/structs/options.rs` — the `Mode` / `Action` / `Coerce` enums and the
  stringification of values;
* `src/template.rs` — `get_header_map`, `copy_range_from`,
  `add_df_by_column_name`, `fill_with`.

Modelling conventions:

* A worksheet (the umya-spreadsheet `Worksheet` collaborator) is an append-log
  of cell writes; a later entry for the same `(col, row)` shadows an earlier
  one, which matches `get_cell_mut(..).set_value(..)` observationally.
  `get_highest_column` / `get_highest_row` are maxima over the recorded cells,
  `0` for an empty sheet, as in umya-spreadsheet.
* Rust `f64` numeric values are modelled as exact rationals `ℚ`; the parsing
  function `str::parse::<f64>` and the formatting function `f64::to_string`
  are external-collaborator parameters (`parse : String → Option ℚ`,
  `fmtF : ℚ → String`) passed to the embedded functions, exactly where the
  source calls into the Rust standard library.
* Polars `DataFrame`s are modelled by `Table`: named columns of `RVal`
  (the `AnyValue` scalars the source matches on) plus the frame height.
* Fallible Rust paths (`PyResult` / `Result`) are `Except String`.
* The embedded write loops additionally thread a write log (`Wr`), recording
  each `set_value` performed on a data cell; the log is ghost instrumentation
  used only to state where writes land, the sheet evolution is unchanged.
-/

namespace EzExcel

/-- `Mode` from `src/structs/options.rs`: row-major or column-major layout. -/
inductive Mode
  | Row
  | Column
deriving DecidableEq, Repr

/-- `Action` from `src/structs/options.rs`: the aggregation operator. -/
inductive Action
  | Sum
  | Count
  | Average
deriving DecidableEq, Repr

/-- `Coerce` from `src/structs/options.rs`: post-copy coercion policy. -/
inductive Coerce
  | None
  | Integer
  | Float
  | String
deriving DecidableEq, Repr

/-- A worksheet cell value as stored by umya-spreadsheet: text. A sheet is the
append-log of `(coordinate, text)` writes (later entries shadow earlier). -/
structure Sheet where
  cells : List ((ℕ × ℕ) × String)
deriving DecidableEq, Repr

namespace Sheet

/-- `worksheet.get_cell((col, row))`: present iff some write touched the
coordinate; the value is the last write there. -/
def getCell (ws : Sheet) (c r : ℕ) : Option String :=
  (ws.cells.reverse.find? (fun p => decide (p.1 = (c, r)))).map (·.2)

/-- `worksheet.get_value((col, row))`: empty string for an absent cell. -/
def getValue (ws : Sheet) (c r : ℕ) : String :=
  (ws.getCell c r).getD ""

/-- `worksheet.get_cell_mut((col, row)).set_value(v)`. -/
def setCell (ws : Sheet) (c r : ℕ) (v : String) : Sheet :=
  ⟨ws.cells ++ [((c, r), v)]⟩

/-- `worksheet.get_highest_column()`. -/
def highestColumn (ws : Sheet) : ℕ :=
  ws.cells.foldl (fun m p => max m p.1.1) 0

/-- `worksheet.get_highest_row()`. -/
def highestRow (ws : Sheet) : ℕ :=
  ws.cells.foldl (fun m p => max m p.1.2) 0

/-- `worksheet.remove_row(&start, &num)`: deletes rows
`start .. start+num-1` and shifts later rows up by `num`. -/
def removeRows (ws : Sheet) (start num : ℕ) : Sheet :=
  ⟨ws.cells.filterMap (fun p =>
    if p.1.2 < start then some p
    else if p.1.2 < start + num then none
    else some ((p.1.1, p.1.2 - num), p.2))⟩

/-- `worksheet.remove_column(&letter, &num)` after the collaborator has turned
the letter back into a 1-based index: deletes columns `start .. start+num-1`
and shifts later columns left by `num`. -/
def removeColumns (ws : Sheet) (start num : ℕ) : Sheet :=
  ⟨ws.cells.filterMap (fun p =>
    if p.1.1 < start then some p
    else if p.1.1 < start + num then none
    else some ((p.1.1 - num, p.1.2), p.2))⟩

end Sheet

/-! ## Column-letter codec (`src/utils/excel.rs`) -/

/-- `excel_col_to_index` (utils/excel.rs): folds over the reversed characters,
`acc + (c as u32 - 'A' as u32 + 1) * 26_u32.pow(i)`. The fold runs in `u32`,
so the power, the product and the sum are each reduced modulo `2^32`
(wrapping, the release-build semantics; a debug build panics at the same
inputs, so either way the program does not compute the unbounded value for
strings whose column number exceeds `u32::MAX`). The digit `c as u32 - 'A' + 1`
itself cannot wrap for any `char`, so it carries no reduction. -/
def excel_col_to_index (s : String) : ℕ :=
  (s.data.reverse.enum).foldl
    (fun acc ic =>
      (acc + ((ic.2.toNat - 'A'.toNat + 1) * (26 ^ ic.1 % 2 ^ 32)) % 2 ^ 32)
        % 2 ^ 32) 0

/-- The digit-emitting loop of `index_to_excel_col` (utils/excel.rs): pushes
least-significant letters first; `remainder = (n-1) % 26`, `n ← (n-1) / 26`. -/
def toColChars (n : ℕ) : List Char :=
  if h : n = 0 then [] else
    Char.ofNat ('A'.toNat + (n - 1) % 26) :: toColChars ((n - 1) / 26)
termination_by n
decreasing_by
  exact lt_of_le_of_lt (Nat.div_le_self _ _) (Nat.sub_lt (Nat.pos_of_ne_zero h) one_pos)

/-- `index_to_excel_col` (utils/excel.rs): emit digits then reverse. -/
def index_to_excel_col (n : ℕ) : String :=
  ⟨(toColChars n).reverse⟩

/-- A valid column-letter string: nonempty, uppercase `A`–`Z` characters. -/
def ValidColStr (s : String) : Prop :=
  s.data ≠ [] ∧ ∀ c ∈ s.data, 65 ≤ c.toNat ∧ c.toNat ≤ 90

instance : DecidablePred ValidColStr := fun s => by
  unfold ValidColStr; infer_instance

/-- The digit value `c - 'A' + 1` the codec assigns to a letter. -/
def colDigit (c : Char) : ℕ := c.toNat - 'A'.toNat + 1

/-- Value of a least-significant-digit-first letter list. -/
def colValR : List Char → ℕ
  | [] => 0
  | c :: cs => colDigit c + 26 * colValR cs

/-! ## Aggregator (`src/utils/aggregate.rs`) -/

/-- State of `aggregate_range`'s single pass: the four `f64` vectors
(`sum_by_row`, `sum_by_col`, `count_not_numeric_by_row`,
`count_not_numeric_by_col`), modelled as functions from the 0-based offset. -/
structure AggAcc where
  sumR : ℕ → ℚ
  sumC : ℕ → ℚ
  cntR : ℕ → ℚ
  cntC : ℕ → ℚ

/-- `vec[i] += d` on a vector modelled as a function. -/
def updFn (f : ℕ → ℚ) (i : ℕ) (d : ℚ) : ℕ → ℚ :=
  fun j => if j = i then f j + d else f j

/-- Body of `aggregate_range`'s nested loops for one `(row, col)`: absent and
non-numeric cells are skipped (logged in the source), a parsed value is added
to the row/column sums and the row/column counts are bumped. -/
def aggStep (src : Sheet) (parse : String → Option ℚ) (startRow startCol : ℕ)
    (acc : AggAcc) (row col : ℕ) : AggAcc :=
  match src.getCell col row with
  | none => acc
  | some s =>
    match parse s with
    | none => acc
    | some v =>
      { sumR := updFn acc.sumR (row - startRow) v
        sumC := updFn acc.sumC (col - startCol) v
        cntR := updFn acc.cntR (row - startRow) 1
        cntC := updFn acc.cntC (col - startCol) 1 }

/-- The accumulation pass of `aggregate_range`: rows outer, columns inner,
over `start_row..=end_row` × `start_col..=end_col` (iterated here through the
0-based offsets into those inclusive ranges). -/
def aggLoop (src : Sheet) (parse : String → Option ℚ)
    (startRow startCol endRow endCol : ℕ) : AggAcc :=
  (List.range (endRow - startRow + 1)).foldl
    (fun acc i =>
      (List.range (endCol - startCol + 1)).foldl
        (fun acc2 j =>
          aggStep src parse startRow startCol acc2 (startRow + i) (startCol + j))
        acc)
    ⟨fun _ => 0, fun _ => 0, fun _ => 0, fun _ => 0⟩

/-- `aggregate_range` (utils/aggregate.rs): one pass of sums/counts, then the
`Mode` selects the axis and the `Action` selects/combines the vectors;
`Average` fails when no per-line count is positive. -/
def aggregate_range (src : Sheet) (parse : String → Option ℚ)
    (startRow startCol endRow endCol : ℕ) (action : Action) (mode : Mode) :
    Except String (List ℚ) :=
  let acc := aggLoop src parse startRow startCol endRow endCol
  let sum : List ℚ := match mode with
    | .Row => (List.range (endRow - startRow + 1)).map acc.sumR
    | .Column => (List.range (endCol - startCol + 1)).map acc.sumC
  let count : List ℚ := match mode with
    | .Row => (List.range (endRow - startRow + 1)).map acc.cntR
    | .Column => (List.range (endCol - startCol + 1)).map acc.cntC
  match action with
  | .Sum => .ok sum
  | .Count => .ok count
  | .Average =>
    if count.any (fun c => decide (0 < c)) then
      .ok (List.zipWith (fun s c => s / c) sum count)
    else
      .error "Division by zero"

/-- Numeric contribution of a cell: its parsed value, `0` when the cell is
absent or its text is non-numeric. -/
def pval (src : Sheet) (parse : String → Option ℚ) (row col : ℕ) : ℚ :=
  match src.getCell col row with
  | none => 0
  | some s => (parse s).getD 0

/-- Count contribution of a cell: `1` when present and numeric, else `0`. -/
def pcnt (src : Sheet) (parse : String → Option ℚ) (row col : ℕ) : ℚ :=
  match src.getCell col row with
  | none => 0
  | some s => if (parse s).isSome then 1 else 0

/-- The per-line vector `aggregate_range` names `sum` after selecting the axis. -/
def aggSumList (src : Sheet) (parse : String → Option ℚ)
    (sr sc er ec : ℕ) (mode : Mode) : List ℚ :=
  match mode with
  | .Row => (List.range (er - sr + 1)).map (aggLoop src parse sr sc er ec).sumR
  | .Column => (List.range (ec - sc + 1)).map (aggLoop src parse sr sc er ec).sumC

/-- The per-line vector `aggregate_range` names `count` after selecting the axis. -/
def aggCountList (src : Sheet) (parse : String → Option ℚ)
    (sr sc er ec : ℕ) (mode : Mode) : List ℚ :=
  match mode with
  | .Row => (List.range (er - sr + 1)).map (aggLoop src parse sr sc er ec).cntR
  | .Column => (List.range (ec - sc + 1)).map (aggLoop src parse sr sc er ec).cntC

/-- Number of valid (present and numeric) cells of one line of the range,
along the axis the `Mode` selects. -/
def lineValidCount (src : Sheet) (parse : String → Option ℚ)
    (sr sc er ec : ℕ) (mode : Mode) (line : ℕ) : ℕ :=
  match mode with
  | .Row => ((Finset.range (ec - sc + 1)).filter
      (fun j => ((src.getCell (sc + j) (sr + line)).bind parse).isSome = true)).card
  | .Column => ((Finset.range (er - sr + 1)).filter
      (fun i => ((src.getCell (sc + line) (sr + i)).bind parse).isSome = true)).card

/-- Concrete 2×2 numeric sheet `[[1,2],[3,4]]` at `A1:B2`. -/
def src22 : Sheet := ⟨[((1, 1), "1"), ((2, 1), "2"), ((1, 2), "3"), ((2, 2), "4")]⟩

/-- A concrete stand-in for `str::parse::<f64>`, defined on the strings the
demonstration sheets use. -/
def demoParse : String → Option ℚ := fun s =>
  if s = "1" then some 1 else if s = "2" then some 2
  else if s = "3" then some 3 else if s = "4" then some 4
  else if s = "3.7" then some (37 / 10) else none

/-- The values of `src22` by 0-based (row, column) offset. -/
def v22 : ℕ → ℕ → ℚ := fun i j =>
  if i = 0 then (if j = 0 then 1 else 2) else (if j = 0 then 3 else 4)

/-! ## Range copy (`copy_range_from`, src/template.rs lines 234–272) -/

/-- Rust's saturating `f64 as i32` cast on an exact rational: truncation
toward zero, clamped to the `i32` range. -/
def f64_as_i32 (q : ℚ) : ℤ :=
  max (-(2 ^ 31)) (min (2 ^ 31 - 1) (if 0 ≤ q then Rat.floor q else Rat.ceil q))

/-- Per-cell coercion of `copy_range_from` (template.rs 240–254):
`None`/`String` pass the text through; otherwise the text is parsed as `f64`,
`Integer` truncates to `i32` and stringifies, `Float` restringifies, and a
parse failure yields the empty string (logged, not fatal). -/
def coerceValue (parse : String → Option ℚ) (fmtF : ℚ → String)
    (coerce : Coerce) (original : String) : String :=
  match coerce with
  | .None | .String => original
  | _ =>
    match parse original with
    | some v =>
      match coerce with
      | .Integer => toString (f64_as_i32 v)
      | _ => fmtF v
    | none => ""

/-- Destination coordinates for the source cell at `(col, row)`
(template.rs 256–261): offsets from the range start are added to the current
cell, swapped when transposing. -/
def copyDest (aCol aRow sc sr : ℕ) (transpose : Bool) (col row : ℕ) : ℕ × ℕ :=
  if transpose then (aCol + row - sr, aRow + col - sc)
  else (aCol + col - sc, aRow + row - sr)

/-- One iteration of `copy_range_from`'s inner loop: an absent source cell is
skipped, a present one is coerced and written at its destination. -/
def copyCellStep (srcSheet : Sheet) (parse : String → Option ℚ)
    (fmtF : ℚ → String) (sc sr aCol aRow : ℕ) (transpose : Bool)
    (coerce : Coerce) (p : Sheet × List ((ℕ × ℕ) × String)) (col row : ℕ) :
    Sheet × List ((ℕ × ℕ) × String) :=
  match srcSheet.getCell col row with
  | none => p
  | some original =>
    let value := coerceValue parse fmtF coerce original
    let d := copyDest aCol aRow sc sr transpose col row
    (p.1.setCell d.1 d.2 value, p.2 ++ [(d, value)])

/-- The log entries one source cell contributes. -/
def copyCellLog (srcSheet : Sheet) (parse : String → Option ℚ)
    (fmtF : ℚ → String) (sc sr aCol aRow : ℕ) (transpose : Bool)
    (coerce : Coerce) (col row : ℕ) : List ((ℕ × ℕ) × String) :=
  match srcSheet.getCell col row with
  | none => []
  | some original =>
    [(copyDest aCol aRow sc sr transpose col row,
      coerceValue parse fmtF coerce original)]

/-- `copy_range_from` (template.rs 234–272): columns outer, rows inner, over
`start_col..=end_col` × `start_row..=end_row` (iterated through 0-based
offsets into the inclusive ranges); returns the sheet and the write log. -/
def copy_range_from (ws srcSheet : Sheet) (parse : String → Option ℚ)
    (fmtF : ℚ → String) (sc sr ec er aCol aRow : ℕ) (transpose : Bool)
    (coerce : Coerce) : Sheet × List ((ℕ × ℕ) × String) :=
  (List.range (ec - sc + 1)).foldl (fun p dc =>
    (List.range (er - sr + 1)).foldl (fun p2 dr =>
      copyCellStep srcSheet parse fmtF sc sr aCol aRow transpose coerce p2
        (sc + dc) (sr + dr)) p) (ws, [])

/-- Witness sheet for C8: one cell `A1 = "3.7"`. -/
def src37 : Sheet := ⟨[((1, 1), "3.7")]⟩

/-! ## Header map and DataFrame fill (`src/template.rs`) -/

/-- The Polars `AnyValue` scalars `convert_anyvalue_to_string` matches on. -/
inductive RVal
  | null
  | str (s : String)
  | int (n : ℤ)
  | float (q : ℚ)
  | bool (b : Bool)
deriving DecidableEq, Repr

/-- `convert_anyvalue_to_string` (utils/py2rs.rs 21–31): null renders as the
empty string, strings pass through, ints and bools use Rust `to_string`,
floats go through the external float formatter. -/
def convert_anyvalue_to_string (fmtF : ℚ → String) : RVal → String
  | .null => ""
  | .str s => s
  | .int n => toString n
  | .float q => fmtF q
  | .bool b => toString b

/-- A Polars `DataFrame`: named series plus the frame height (in Polars all
series share the height). -/
structure Table where
  cols : List (String × List RVal)
  height : ℕ
deriving DecidableEq, Repr

/-- `df.get_column_names()`. -/
def Table.names (df : Table) : List String := df.cols.map (·.1)

/-- `df.column(name).ok()`. -/
def Table.column (df : Table) (name : String) : Option (List RVal) :=
  (df.cols.find? (fun p => p.1 == name)).map (·.2)

/-- A Rust `HashMap<String, u32>` as an association list; this embedding
iterates it in insertion order (the Rust iteration order is unspecified). -/
abbrev HMap := List (String × ℕ)

/-- `HashMap::insert`: replaces the value under an existing key, else appends. -/
def hmInsert (m : HMap) (k : String) (v : ℕ) : HMap :=
  if m.any (fun p => p.1 == k) then
    m.map (fun p => if p.1 == k then (k, v) else p)
  else m ++ [(k, v)]

/-- `HashMap::contains_key`. -/
def hmContains (m : HMap) (k : String) : Bool := m.any (fun p => p.1 == k)

/-- `HashMap::get`. -/
def hmLookup (m : HMap) (k : String) : Option ℕ :=
  (m.find? (fun p => p.1 == k)).map (·.2)

/-- Rust's inclusive range `a..=b` as a list. -/
def rangeIncl (a b : ℕ) : List ℕ := (List.range (b + 1 - a)).map (a + ·)

/-- `get_header_map` (template.rs 336–377): reads the header line from the
header location's own index up to the sheet's highest column (Row mode) or
highest row (Column mode), inserting each cell's string value as key; the
inserted index is the `col` coordinate in both modes, as in the source. -/
def get_header_map (ws : Sheet) (headerCol headerRow : ℕ) (mode : Mode) : HMap :=
  let first := match mode with
    | .Row => headerCol
    | .Column => headerRow
  let last := match mode with
    | .Row => ws.highestColumn
    | .Column => ws.highestRow
  (rangeIncl first last).foldl (fun m i =>
    let cr : ℕ × ℕ := match mode with
      | .Row => (i, headerRow)
      | .Column => (headerCol, i)
    hmInsert m (ws.getValue cr.1 cr.2) cr.1) []

/-- First check of `add_df_by_column_name` (template.rs 472–481): a sheet
header absent from the DataFrame is an error in strict mode (a warning
otherwise). -/
def checkMissingInDf : HMap → List String → Bool → Except String Unit
  | [], _, _ => Except.ok ()
  | (k, _) :: rest, dfHeaders, strict =>
    if !(dfHeaders.contains k) && strict then
      Except.error ("Header '" ++ k ++ "' in the ExcelTemplate is missing in the DataFrame.")
    else checkMissingInDf rest dfHeaders strict

/-- Second check of `add_df_by_column_name` (template.rs 483–495): a
DataFrame column absent from the sheet's header map is an error in strict
mode; in lenient mode it is inserted at `highest_column + 1` (the highest
column is re-read from the still-unmodified worksheet each time). -/
def extendHeaderMap (ws : Sheet) : List String → HMap → Bool → Except String HMap
  | [], hm, _ => Except.ok hm
  | c :: rest, hm, strict =>
    if !(hmContains hm c) then
      if strict then
        Except.error ("Header '" ++ c ++ "' is missing in the ExcelTemplate.")
      else
        extendHeaderMap ws rest (hmInsert hm c (ws.highestColumn + 1)) strict
    else extendHeaderMap ws rest hm strict

/-- One logged data-cell write: the DataFrame column it came from, the
destination coordinates and the written text (ghost instrumentation). -/
structure Wr where
  name : String
  col : ℕ
  row : ℕ
  val : String
deriving DecidableEq, Repr

/-- One iteration of the inner write loop of `add_df_by_column_name`
(template.rs 508–522), as the write it performs: `none` when `skip_null`
suppresses a null, otherwise the stringified value at the `Mode`-selected
coordinates. -/
def writeStepOpt (fmtF : ℚ → String) (vals : List RVal) (mode : Mode)
    (skipNull : Bool) (curCol curRow idx : ℕ) (name : String) (i : ℕ) :
    Option Wr :=
  let value := vals.getD i RVal.null
  if skipNull && decide (value = RVal.null) then none
  else
    let cellValue := convert_anyvalue_to_string fmtF value
    let cr : ℕ × ℕ := match mode with
      | .Row => (idx, curRow + i)
      | .Column => (curCol + i, idx)
    some ⟨name, cr.1, cr.2, cellValue⟩

/-- The inner write loop of `add_df_by_column_name` for one series
(template.rs 508–522): runs `i` over `0..height`, skipping or writing per
`writeStepOpt`. -/
def writeSeries (fmtF : ℚ → String) (vals : List RVal) (height : ℕ)
    (mode : Mode) (skipNull : Bool) (curCol curRow idx : ℕ) (name : String)
    (p : Sheet × List Wr) : Sheet × List Wr :=
  (List.range height).foldl (fun q i =>
    match writeStepOpt fmtF vals mode skipNull curCol curRow idx name i with
    | none => q
    | some w => (q.1.setCell w.col w.row w.val, q.2 ++ [w])) p

/-- The log entries one series contributes. -/
def seriesLog (fmtF : ℚ → String) (vals : List RVal) (height : ℕ)
    (mode : Mode) (skipNull : Bool) (curCol curRow idx : ℕ) (name : String) :
    List Wr :=
  (List.range height).filterMap
    (writeStepOpt fmtF vals mode skipNull curCol curRow idx name)

/-- The per-column loop of `add_df_by_column_name` (template.rs 505–524):
header-map entries that name no DataFrame column are skipped. -/
def writeAllCols (fmtF : ℚ → String) (df : Table) (mode : Mode)
    (skipNull : Bool) (curCol curRow : ℕ) (hm : HMap) (ws : Sheet) :
    Sheet × List Wr :=
  hm.foldl (fun p entry =>
    match df.column entry.1 with
    | none => p
    | some vals =>
      writeSeries fmtF vals df.height mode skipNull curCol curRow entry.2 entry.1 p)
    (ws, [])

/-- The truncation step of `add_df_by_column_name` (template.rs 526–543);
the `Column` arm goes through the letter codec as the source passes the first
column to remove as a letter string. -/
def truncateSheet (ws : Sheet) (mode : Mode) (curCol curRow height : ℕ) : Sheet :=
  match mode with
  | .Row =>
    let lastRow := ws.highestRow
    let firstRowToRemove := curRow + height
    if firstRowToRemove ≤ lastRow then
      ws.removeRows firstRowToRemove (lastRow - firstRowToRemove + 1)
    else ws
  | .Column =>
    let lastCol := ws.highestColumn
    let firstColToRemove := curCol + height
    if firstColToRemove ≤ lastCol then
      ws.removeColumns (excel_col_to_index (index_to_excel_col firstColToRemove))
        (lastCol - firstColToRemove + 1)
    else ws

/-- `add_df_by_column_name` (template.rs 449–546): both header checks, the
write loops, then truncation along the write axis. -/
def add_df_by_column_name (fmtF : ℚ → String) (ws : Sheet) (df : Table)
    (hm : HMap) (mode : Mode) (strict skipNull : Bool) (curCol curRow : ℕ) :
    Except String (Sheet × List Wr) :=
  match checkMissingInDf hm df.names strict with
  | .error e => .error e
  | .ok _ =>
    match extendHeaderMap ws df.names hm strict with
    | .error e => .error e
    | .ok hm2 =>
      let p := writeAllCols fmtF df mode skipNull curCol curRow hm2 ws
      .ok (truncateSheet p.1 mode curCol curRow df.height, p.2)

/-- `fill_with` (template.rs 379–443): builds the header map from the header
location, computes the first data line (`header + 1` when overwriting, else
`extent + 1`), and delegates to `add_df_by_column_name`. -/
def fill_with (fmtF : ℚ → String) (ws : Sheet) (df : Table) (mode : Mode)
    (strict skipNull overwrite : Bool) (headerCol headerRow : ℕ) :
    Except String (Sheet × List Wr) :=
  let hm := get_header_map ws headerCol headerRow mode
  let lastCol := ws.highestColumn
  let lastRow := ws.highestRow
  let firstCol := match mode with
    | .Row => headerCol
    | .Column => if overwrite then headerCol + 1 else lastCol + 1
  let firstRow := match mode with
    | .Row => if overwrite then headerRow + 1 else lastRow + 1
    | .Column => headerRow
  add_df_by_column_name fmtF ws df hm mode strict skipNull firstCol firstRow

/-- The full write log of the per-column loop. -/
def colsLog (fmtF : ℚ → String) (df : Table) (mode : Mode) (skipNull : Bool)
    (curCol curRow : ℕ) (hm : HMap) : List Wr :=
  hm.flatMap (fun entry =>
    match df.column entry.1 with
    | none => []
    | some vals =>
      seriesLog fmtF vals df.height mode skipNull curCol curRow entry.2 entry.1)

/-- Two-cell header row: `A1 = "X"`, `B1 = "Y"`. -/
def demoHeaderSheet : Sheet := ⟨[((1, 1), "X"), ((2, 1), "Y")]⟩

/-- Trivial float formatter for the demonstration tables (which hold no
float values). -/
def fmt0 : ℚ → String := fun _ => ""

/-- Demo sheet for C1: one header cell, highest row `R = 1`. -/
def wsC1 : Sheet := ⟨[((1, 1), "Name")]⟩

/-- Demo table for C1: one column of height 2. -/
def dfC1 : Table := ⟨[("Name", [RVal.str "Ann", RVal.str "Bo"])], 2⟩

/-- Demo sheet for C3: header plus a stale row 5. -/
def wsC3 : Sheet := ⟨[((1, 1), "H"), ((1, 5), "old")]⟩

/-- Demo table for C3: one column of height 1. -/
def dfC3 : Table := ⟨[("H", [RVal.str "x"])], 1⟩

/-- Demo sheet for C4: header line holds `"Y"`. -/
def wsC4 : Sheet := ⟨[((1, 1), "Y")]⟩

/-- Demo table for C4: its one column is `"X"`, matching nothing. -/
def dfC4 : Table := ⟨[("X", ([] : List RVal))], 0⟩

/-- Demo sheet for C10: one header `"A"`, highest column 1. -/
def wsC10 : Sheet := ⟨[((1, 1), "A")]⟩

/-- Demo table for C10: two columns `"B"`, `"C"`, both missing from the
sheet's header line. -/
def dfC10 : Table := ⟨[("B", [RVal.str "b0"]), ("C", [RVal.str "c0"])], 1⟩

lemma enumFrom_colFold (l : List Char) (k t : ℕ) :
    (l.enumFrom k).foldl
        (fun acc ic =>
          (acc + ((ic.2.toNat - 'A'.toNat + 1) * (26 ^ ic.1 % 2 ^ 32)) % 2 ^ 32)
            % 2 ^ 32) (t % 2 ^ 32)
      = (t + 26 ^ k * colValR l) % 2 ^ 32 := by
  induction l generalizing k t with
  | nil => simp [colValR]
  | cons c cs ih =>
    simp only [List.enumFrom, List.foldl_cons, colValR]
    have h1 : ((c.toNat - 'A'.toNat + 1) * (26 ^ k % 2 ^ 32)) % 2 ^ 32
        = ((c.toNat - 'A'.toNat + 1) * 26 ^ k) % 2 ^ 32 :=
      Nat.ModEq.mul_left _ (Nat.mod_modEq _ _)
    rw [h1, ← Nat.add_mod, ih (k + 1) (t + (c.toNat - 'A'.toNat + 1) * 26 ^ k)]
    congr 1
    simp only [colDigit, pow_succ]
    ring

lemma excel_col_to_index_eq (s : String) :
    excel_col_to_index s = colValR s.data.reverse % 2 ^ 32 := by
  have h := enumFrom_colFold s.data.reverse 0 0
  simpa [excel_col_to_index, List.enum] using h

lemma charOfNat_toNat_of_lt (r : ℕ) (h : r < 26) :
    (Char.ofNat ('A'.toNat + r)).toNat = 'A'.toNat + r := by
  interval_cases r <;> decide

lemma colValR_toColChars (n : ℕ) : colValR (toColChars n) = n := by
  induction n using Nat.strong_induction_on with
  | _ n ih =>
    by_cases h : n = 0
    · subst h; rw [toColChars]; simp [colValR]
    · rw [toColChars, dif_neg h]
      have hlt : (n - 1) / 26 < n :=
        lt_of_le_of_lt (Nat.div_le_self _ _) (Nat.sub_lt (Nat.pos_of_ne_zero h) one_pos)
      have hmod : (n - 1) % 26 < 26 := Nat.mod_lt _ (by norm_num)
      have hdig := charOfNat_toNat_of_lt _ hmod
      have hdm := Nat.div_add_mod (n - 1) 26
      simp only [colValR, colDigit, hdig, ih _ hlt]
      omega

lemma toColChars_colValR (l : List Char)
    (hl : ∀ c ∈ l, 65 ≤ c.toNat ∧ c.toNat ≤ 90) :
    toColChars (colValR l) = l := by
  induction l with
  | nil => rw [colValR]; rw [toColChars]; rfl
  | cons c cs ih =>
    obtain ⟨h1, h2⟩ := hl c (List.mem_cons_self _ _)
    have hA : 'A'.toNat = 65 := rfl
    have hd1 : 1 ≤ colDigit c := Nat.le_add_left _ _
    have hd26 : colDigit c ≤ 26 := by simp only [colDigit, hA]; omega
    have hne : colDigit c + 26 * colValR cs ≠ 0 := by omega
    rw [colValR, toColChars, dif_neg hne]
    have hsub : colDigit c + 26 * colValR cs - 1 = (colDigit c - 1) + 26 * colValR cs := by
      omega
    have hmod : ((colDigit c - 1) + 26 * colValR cs) % 26 = colDigit c - 1 := by
      rw [Nat.add_mul_mod_self_left, Nat.mod_eq_of_lt (by omega)]
    have hdiv : ((colDigit c - 1) + 26 * colValR cs) / 26 = colValR cs := by
      rw [Nat.add_mul_div_left _ _ (by norm_num : (0:ℕ) < 26),
        Nat.div_eq_of_lt (by omega), Nat.zero_add]
    rw [hsub, hmod, hdiv, ih (fun c hc => hl c (List.mem_cons_of_mem _ hc))]
    have hc : 'A'.toNat + (colDigit c - 1) = c.toNat := by simp only [colDigit, hA]; omega
    rw [hc, Char.ofNat_toNat]

/-- **C9 (amended).** For every valid uppercase column-letter string `s`
whose column number fits in `u32` (`colValR s.data.reverse < 2^32`),
`index_to_excel_col (excel_col_to_index s) = s`, and for every positive
integer `n < 2^32`, `excel_col_to_index (index_to_excel_col n) = n`.
Without the `u32` bound the round trip fails: the source's fold runs in
`u32` and wraps (see `col_codec_roundtrip_counterexample`). -/
theorem col_codec_roundtrip (s : String) (n : ℕ)
    (hs : ValidColStr s) (hsfit : colValR s.data.reverse < 2 ^ 32)
    (_hn : 1 ≤ n) (hnfit : n < 2 ^ 32) :
    index_to_excel_col (excel_col_to_index s) = s ∧
    excel_col_to_index (index_to_excel_col n) = n := by
  refine ⟨?_, ?_⟩
  · rw [excel_col_to_index_eq, Nat.mod_eq_of_lt hsfit, index_to_excel_col,
      toColChars_colValR _ (fun c hc => hs.2 c (List.mem_reverse.mp hc))]
    cases s with
    | mk data => simp
  · rw [index_to_excel_col, excel_col_to_index_eq]
    simp only [List.reverse_reverse]
    rw [colValR_toColChars n, Nat.mod_eq_of_lt hnfit]

/-- Witness for C9: the round trips evaluated at `s = "AB"`, `n = 28`. -/
theorem col_codec_roundtrip_witness :
    index_to_excel_col (excel_col_to_index "AB") = "AB" ∧
    excel_col_to_index (index_to_excel_col 28) = 28 :=
  col_codec_roundtrip "AB" 28 (by decide) (by decide) (by decide) (by decide)

/-- Counterexample to C9 as stated: `"ZZZZZZZ"` is a valid column-letter
string, but its column number 8353082582 exceeds `u32::MAX`, so the source's
`u32` fold wraps it to 4058115286 and converting back does not return
`"ZZZZZZZ"`. -/
theorem col_codec_roundtrip_counterexample :
    ValidColStr "ZZZZZZZ" ∧
    index_to_excel_col (excel_col_to_index "ZZZZZZZ") ≠ "ZZZZZZZ" := by
  refine ⟨by decide, ?_⟩
  intro heq
  have hv : colValR
        (index_to_excel_col (excel_col_to_index "ZZZZZZZ")).data.reverse
      = excel_col_to_index "ZZZZZZZ" := by
    rw [index_to_excel_col]
    simpa using colValR_toColChars (excel_col_to_index "ZZZZZZZ")
  rw [heq] at hv
  revert hv
  decide

theorem AggAcc.ext_fn {a b : AggAcc} (h1 : ∀ x, a.sumR x = b.sumR x)
    (h2 : ∀ x, a.sumC x = b.sumC x) (h3 : ∀ x, a.cntR x = b.cntR x)
    (h4 : ∀ x, a.cntC x = b.cntC x) : a = b := by
  cases a; cases b
  simp only [AggAcc.mk.injEq]
  exact ⟨funext h1, funext h2, funext h3, funext h4⟩

lemma aggStep_eq (src : Sheet) (parse : String → Option ℚ) (sr sc : ℕ)
    (acc : AggAcc) (r c : ℕ) :
    aggStep src parse sr sc acc r c
      = { sumR := updFn acc.sumR (r - sr) (pval src parse r c)
          sumC := updFn acc.sumC (c - sc) (pval src parse r c)
          cntR := updFn acc.cntR (r - sr) (pcnt src parse r c)
          cntC := updFn acc.cntC (c - sc) (pcnt src parse r c) } := by
  unfold aggStep pval pcnt
  cases h : src.getCell c r with
  | none =>
    refine AggAcc.ext_fn ?_ ?_ ?_ ?_ <;> intro x <;> simp [updFn]
  | some s =>
    cases hp : parse s with
    | none =>
      simp only [hp]
      refine AggAcc.ext_fn ?_ ?_ ?_ ?_ <;> intro x <;> simp [updFn]
    | some v => simp [hp]

lemma agg_inner_fold (src : Sheet) (parse : String → Option ℚ)
    (sr sc r n : ℕ) (acc : AggAcc) :
    (List.range n).foldl
        (fun acc2 j => aggStep src parse sr sc acc2 r (sc + j)) acc
      = { sumR := fun x => if x = r - sr then
              acc.sumR x + ∑ j in Finset.range n, pval src parse r (sc + j)
            else acc.sumR x
          sumC := fun x => if x < n then
              acc.sumC x + pval src parse r (sc + x)
            else acc.sumC x
          cntR := fun x => if x = r - sr then
              acc.cntR x + ∑ j in Finset.range n, pcnt src parse r (sc + j)
            else acc.cntR x
          cntC := fun x => if x < n then
              acc.cntC x + pcnt src parse r (sc + x)
            else acc.cntC x } := by
  induction n with
  | zero =>
    refine AggAcc.ext_fn ?_ ?_ ?_ ?_ <;> intro x <;> simp
  | succ n ih =>
    rw [List.range_succ, List.foldl_append, List.foldl_cons, List.foldl_nil, ih,
      aggStep_eq]
    have hsc : sc + n - sc = n := by omega
    refine AggAcc.ext_fn ?_ ?_ ?_ ?_ <;> intro x <;>
      simp only [updFn, hsc, Finset.sum_range_succ]
    · by_cases hx : x = r - sr <;> simp [hx] <;> ring
    · by_cases hx : x = n
      · subst hx; simp
      · have : (x < n) ↔ (x < n + 1) := by omega
        simp [hx, this]
    · by_cases hx : x = r - sr <;> simp [hx] <;> ring
    · by_cases hx : x = n
      · subst hx; simp
      · have : (x < n) ↔ (x < n + 1) := by omega
        simp [hx, this]

lemma agg_outer_fold (src : Sheet) (parse : String → Option ℚ)
    (sr sc n m : ℕ) :
    (List.range m).foldl
        (fun acc i => (List.range n).foldl
          (fun acc2 j => aggStep src parse sr sc acc2 (sr + i) (sc + j)) acc)
        ⟨fun _ => 0, fun _ => 0, fun _ => 0, fun _ => 0⟩
      = { sumR := fun x => if x < m then
              ∑ j in Finset.range n, pval src parse (sr + x) (sc + j) else 0
          sumC := fun x => if x < n then
              ∑ i in Finset.range m, pval src parse (sr + i) (sc + x) else 0
          cntR := fun x => if x < m then
              ∑ j in Finset.range n, pcnt src parse (sr + x) (sc + j) else 0
          cntC := fun x => if x < n then
              ∑ i in Finset.range m, pcnt src parse (sr + i) (sc + x) else 0 } := by
  induction m with
  | zero =>
    refine AggAcc.ext_fn ?_ ?_ ?_ ?_ <;> intro x <;> simp
  | succ m ih =>
    rw [List.range_succ, List.foldl_append, List.foldl_cons, List.foldl_nil, ih,
      agg_inner_fold]
    have hsr : sr + m - sr = m := by omega
    refine AggAcc.ext_fn ?_ ?_ ?_ ?_ <;> intro x <;>
      simp only [hsr, Finset.sum_range_succ]
    · by_cases hx : x = m
      · subst hx; simp
      · have : (x < m) ↔ (x < m + 1) := by omega
        simp [hx, this]
    · by_cases hx : x < n <;> simp [hx]
    · by_cases hx : x = m
      · subst hx; simp
      · have : (x < m) ↔ (x < m + 1) := by omega
        simp [hx, this]
    · by_cases hx : x < n <;> simp [hx]

lemma aggLoop_eq (src : Sheet) (parse : String → Option ℚ)
    (sr sc er ec : ℕ) :
    aggLoop src parse sr sc er ec
      = { sumR := fun x => if x < er - sr + 1 then
              ∑ j in Finset.range (ec - sc + 1), pval src parse (sr + x) (sc + j) else 0
          sumC := fun x => if x < ec - sc + 1 then
              ∑ i in Finset.range (er - sr + 1), pval src parse (sr + i) (sc + x) else 0
          cntR := fun x => if x < er - sr + 1 then
              ∑ j in Finset.range (ec - sc + 1), pcnt src parse (sr + x) (sc + j) else 0
          cntC := fun x => if x < ec - sc + 1 then
              ∑ i in Finset.range (er - sr + 1), pcnt src parse (sr + i) (sc + x) else 0 } :=
  agg_outer_fold src parse sr sc (ec - sc + 1) (er - sr + 1)

lemma aggregate_range_sum (src : Sheet) (parse : String → Option ℚ)
    (sr sc er ec : ℕ) (mode : Mode) :
    aggregate_range src parse sr sc er ec Action.Sum mode
      = Except.ok (aggSumList src parse sr sc er ec mode) := by
  cases mode <;> rfl

lemma aggregate_range_count (src : Sheet) (parse : String → Option ℚ)
    (sr sc er ec : ℕ) (mode : Mode) :
    aggregate_range src parse sr sc er ec Action.Count mode
      = Except.ok (aggCountList src parse sr sc er ec mode) := by
  cases mode <;> rfl

lemma aggregate_range_average (src : Sheet) (parse : String → Option ℚ)
    (sr sc er ec : ℕ) (mode : Mode) :
    aggregate_range src parse sr sc er ec Action.Average mode
      = if (aggCountList src parse sr sc er ec mode).any (fun c => decide (0 < c)) then
          Except.ok (List.zipWith (fun s c => s / c)
            (aggSumList src parse sr sc er ec mode)
            (aggCountList src parse sr sc er ec mode))
        else Except.error "Division by zero" := by
  cases mode <;> rfl

lemma pcnt_eq_indicator (src : Sheet) (parse : String → Option ℚ) (r c : ℕ) :
    pcnt src parse r c
      = if ((src.getCell c r).bind parse).isSome = true then (1 : ℚ) else 0 := by
  unfold pcnt
  cases h : src.getCell c r <;> simp

lemma aggCountList_eq (src : Sheet) (parse : String → Option ℚ)
    (sr sc er ec : ℕ) (mode : Mode) :
    aggCountList src parse sr sc er ec mode
      = (List.range (match mode with
            | Mode.Row => er - sr + 1 | Mode.Column => ec - sc + 1)).map
          (fun line => (lineValidCount src parse sr sc er ec mode line : ℚ)) := by
  cases mode <;>
    · unfold aggCountList lineValidCount
      rw [aggLoop_eq]
      refine List.map_congr_left ?_
      intro x hx
      rw [List.mem_range] at hx
      simp only [if_pos hx]
      rw [Finset.sum_congr rfl (fun j _ => pcnt_eq_indicator src parse _ _)]
      rw [Finset.sum_boole]

/-- **C5.** The lenient aggregator with `Action = Average` fails with the
division-by-zero error iff every per-line valid-value count along the
selected axis is zero; with at least one nonzero per-line count it returns a
result instead. -/
theorem aggregate_average_divzero (src : Sheet) (parse : String → Option ℚ)
    (sr sc er ec : ℕ) (mode : Mode) :
    (aggregate_range src parse sr sc er ec Action.Average mode
        = Except.error "Division by zero")
      ↔ ∀ line < (match mode with
          | Mode.Row => er - sr + 1 | Mode.Column => ec - sc + 1),
          lineValidCount src parse sr sc er ec mode line = 0 := by
  rw [aggregate_range_average, aggCountList_eq]
  by_cases h : ((List.range (match mode with
      | Mode.Row => er - sr + 1 | Mode.Column => ec - sc + 1)).map
        (fun line => (lineValidCount src parse sr sc er ec mode line : ℚ))).any
        (fun c => decide (0 < c)) = true
  · rw [if_pos h]
    simp only [List.any_eq_true, List.mem_map, List.mem_range] at h
    obtain ⟨c, ⟨line, hline, hcast⟩, hpos⟩ := h
    rw [decide_eq_true_eq] at hpos
    constructor
    · intro hcontra; exact absurd hcontra (by simp)
    · intro hall
      have := hall line hline
      rw [← hcast, this] at hpos
      norm_num at hpos
  · rw [if_neg h]
    simp only [List.any_eq_true, List.mem_map, List.mem_range, not_exists, not_and] at h
    constructor
    · intro _ line hline
      have h2 := h ((lineValidCount src parse sr sc er ec mode line : ℚ))
        ⟨line, hline, rfl⟩
      rw [decide_eq_true_eq] at h2
      have : (0 : ℚ) ≤ (lineValidCount src parse sr sc er ec mode line : ℚ) :=
        Nat.cast_nonneg _
      have : (lineValidCount src parse sr sc er ec mode line : ℚ) = 0 := le_antisymm
        (not_lt.mp h2) this
      exact_mod_cast this
    · intro _; rfl

lemma pval_of_allnum (src : Sheet) (parse : String → Option ℚ)
    (r c : ℕ) (q : ℚ) (h : (src.getCell c r).bind parse = some q) :
    pval src parse r c = q := by
  unfold pval
  cases hcell : src.getCell c r with
  | none => rw [hcell] at h; simp at h
  | some s =>
    rw [hcell, Option.some_bind] at h
    simp [h]

lemma pcnt_of_allnum (src : Sheet) (parse : String → Option ℚ)
    (r c : ℕ) (q : ℚ) (h : (src.getCell c r).bind parse = some q) :
    pcnt src parse r c = 1 := by
  unfold pcnt
  cases hcell : src.getCell c r with
  | none => rw [hcell] at h; simp at h
  | some s =>
    rw [hcell, Option.some_bind] at h
    simp [h]

/-- **C6.** Over a range in which every cell is present and numeric,
`aggregate_range` returns: for `Sum` the per-line sums in range order, for
`Count` the number of cells per line, and for `Average` the elementwise
quotient `Sum / Count`. -/
theorem aggregate_all_numeric (src : Sheet) (parse : String → Option ℚ)
    (sr sc er ec : ℕ) (mode : Mode) (v : ℕ → ℕ → ℚ)
    (hv : ∀ i < er - sr + 1, ∀ j < ec - sc + 1,
      (src.getCell (sc + j) (sr + i)).bind parse = some (v i j)) :
    (aggregate_range src parse sr sc er ec Action.Sum mode
        = Except.ok (match mode with
            | Mode.Row => (List.range (er - sr + 1)).map
                (fun i => ∑ j in Finset.range (ec - sc + 1), v i j)
            | Mode.Column => (List.range (ec - sc + 1)).map
                (fun j => ∑ i in Finset.range (er - sr + 1), v i j))) ∧
    (aggregate_range src parse sr sc er ec Action.Count mode
        = Except.ok (match mode with
            | Mode.Row => (List.range (er - sr + 1)).map
                (fun _ => ((ec - sc + 1 : ℕ) : ℚ))
            | Mode.Column => (List.range (ec - sc + 1)).map
                (fun _ => ((er - sr + 1 : ℕ) : ℚ)))) ∧
    (aggregate_range src parse sr sc er ec Action.Average mode
        = Except.ok (List.zipWith (fun s c => s / c)
            (match mode with
              | Mode.Row => (List.range (er - sr + 1)).map
                  (fun i => ∑ j in Finset.range (ec - sc + 1), v i j)
              | Mode.Column => (List.range (ec - sc + 1)).map
                  (fun j => ∑ i in Finset.range (er - sr + 1), v i j))
            (match mode with
              | Mode.Row => (List.range (er - sr + 1)).map
                  (fun _ => ((ec - sc + 1 : ℕ) : ℚ))
              | Mode.Column => (List.range (ec - sc + 1)).map
                  (fun _ => ((er - sr + 1 : ℕ) : ℚ))))) := by
  cases mode with
  | Row =>
    have hS : aggSumList src parse sr sc er ec Mode.Row
        = (List.range (er - sr + 1)).map
            (fun i => ∑ j in Finset.range (ec - sc + 1), v i j) := by
      unfold aggSumList
      rw [aggLoop_eq]
      refine List.map_congr_left ?_
      intro x hx
      rw [List.mem_range] at hx
      simp only [if_pos hx]
      exact Finset.sum_congr rfl (fun y hy =>
        pval_of_allnum src parse _ _ _ (hv x hx y (Finset.mem_range.mp hy)))
    have hC : aggCountList src parse sr sc er ec Mode.Row
        = (List.range (er - sr + 1)).map (fun _ => ((ec - sc + 1 : ℕ) : ℚ)) := by
      unfold aggCountList
      rw [aggLoop_eq]
      refine List.map_congr_left ?_
      intro x hx
      rw [List.mem_range] at hx
      simp only [if_pos hx]
      rw [Finset.sum_congr rfl (fun y hy =>
        pcnt_of_allnum src parse _ _ _ (hv x hx y (Finset.mem_range.mp hy)))]
      simp
    have hany : ((List.range (er - sr + 1)).map
        (fun _ => ((ec - sc + 1 : ℕ) : ℚ))).any (fun c => decide (0 < c)) = true := by
      simp only [List.any_eq_true, List.mem_map, List.mem_range]
      refine ⟨_, ⟨0, Nat.succ_pos _, rfl⟩, ?_⟩
      rw [decide_eq_true_eq]
      positivity
    exact ⟨by rw [aggregate_range_sum, hS], by rw [aggregate_range_count, hC],
      by rw [aggregate_range_average, hS, hC, if_pos hany]⟩
  | Column =>
    have hS : aggSumList src parse sr sc er ec Mode.Column
        = (List.range (ec - sc + 1)).map
            (fun j => ∑ i in Finset.range (er - sr + 1), v i j) := by
      unfold aggSumList
      rw [aggLoop_eq]
      refine List.map_congr_left ?_
      intro x hx
      rw [List.mem_range] at hx
      simp only [if_pos hx]
      exact Finset.sum_congr rfl (fun y hy =>
        pval_of_allnum src parse _ _ _ (hv y (Finset.mem_range.mp hy) x hx))
    have hC : aggCountList src parse sr sc er ec Mode.Column
        = (List.range (ec - sc + 1)).map (fun _ => ((er - sr + 1 : ℕ) : ℚ)) := by
      unfold aggCountList
      rw [aggLoop_eq]
      refine List.map_congr_left ?_
      intro x hx
      rw [List.mem_range] at hx
      simp only [if_pos hx]
      rw [Finset.sum_congr rfl (fun y hy =>
        pcnt_of_allnum src parse _ _ _ (hv y (Finset.mem_range.mp hy) x hx))]
      simp
    have hany : ((List.range (ec - sc + 1)).map
        (fun _ => ((er - sr + 1 : ℕ) : ℚ))).any (fun c => decide (0 < c)) = true := by
      simp only [List.any_eq_true, List.mem_map, List.mem_range]
      refine ⟨_, ⟨0, Nat.succ_pos _, rfl⟩, ?_⟩
      rw [decide_eq_true_eq]
      positivity
    exact ⟨by rw [aggregate_range_sum, hS], by rw [aggregate_range_count, hC],
      by rw [aggregate_range_average, hS, hC, if_pos hany]⟩

/-- Witness for C6: the 2×2 range `[[1,2],[3,4]]` sums to `[3, 7]` row-wise
and `[4, 6]` column-wise. -/
theorem aggregate_all_numeric_witness :
    aggregate_range src22 demoParse 1 1 2 2 Action.Sum Mode.Row = Except.ok [3, 7] ∧
    aggregate_range src22 demoParse 1 1 2 2 Action.Sum Mode.Column = Except.ok [4, 6] := by
  have h1 := aggregate_all_numeric src22 demoParse 1 1 2 2 Mode.Row v22 (by decide)
  have h2 := aggregate_all_numeric src22 demoParse 1 1 2 2 Mode.Column v22 (by decide)
  refine ⟨?_, ?_⟩
  · rw [h1.1]
    norm_num [List.range_succ, Finset.sum_range_succ, v22]
  · rw [h2.1]
    norm_num [List.range_succ, Finset.sum_range_succ, v22]

lemma copyCellStep_log (srcSheet : Sheet) (parse : String → Option ℚ)
    (fmtF : ℚ → String) (sc sr aCol aRow : ℕ) (transpose : Bool)
    (coerce : Coerce) (p : Sheet × List ((ℕ × ℕ) × String)) (col row : ℕ) :
    (copyCellStep srcSheet parse fmtF sc sr aCol aRow transpose coerce p col row).2
      = p.2 ++ copyCellLog srcSheet parse fmtF sc sr aCol aRow transpose coerce col row := by
  unfold copyCellStep copyCellLog
  cases h : srcSheet.getCell col row <;> simp

lemma copy_inner_log (srcSheet : Sheet) (parse : String → Option ℚ)
    (fmtF : ℚ → String) (sc sr aCol aRow : ℕ) (transpose : Bool)
    (coerce : Coerce) (dc : ℕ) (l : List ℕ) (p : Sheet × List ((ℕ × ℕ) × String)) :
    (l.foldl (fun p2 dr =>
        copyCellStep srcSheet parse fmtF sc sr aCol aRow transpose coerce p2
          (sc + dc) (sr + dr)) p).2
      = p.2 ++ l.flatMap (fun dr =>
          copyCellLog srcSheet parse fmtF sc sr aCol aRow transpose coerce
            (sc + dc) (sr + dr)) := by
  induction l generalizing p with
  | nil => simp
  | cons dr l ih =>
    rw [List.foldl_cons, ih, copyCellStep_log]
    simp

lemma copy_outer_log (srcSheet : Sheet) (parse : String → Option ℚ)
    (fmtF : ℚ → String) (sc sr er aCol aRow : ℕ) (transpose : Bool)
    (coerce : Coerce) (l : List ℕ) (p : Sheet × List ((ℕ × ℕ) × String)) :
    (l.foldl (fun p dc =>
        (List.range (er - sr + 1)).foldl (fun p2 dr =>
          copyCellStep srcSheet parse fmtF sc sr aCol aRow transpose coerce p2
            (sc + dc) (sr + dr)) p) p).2
      = p.2 ++ l.flatMap (fun dc =>
          (List.range (er - sr + 1)).flatMap (fun dr =>
            copyCellLog srcSheet parse fmtF sc sr aCol aRow transpose coerce
              (sc + dc) (sr + dr))) := by
  induction l generalizing p with
  | nil => simp
  | cons dc l ih =>
    rw [List.foldl_cons, ih, copy_inner_log]
    simp

lemma copy_range_from_log (ws srcSheet : Sheet) (parse : String → Option ℚ)
    (fmtF : ℚ → String) (sc sr ec er aCol aRow : ℕ) (transpose : Bool)
    (coerce : Coerce) :
    (copy_range_from ws srcSheet parse fmtF sc sr ec er aCol aRow transpose coerce).2
      = (List.range (ec - sc + 1)).flatMap (fun dc =>
          (List.range (er - sr + 1)).flatMap (fun dr =>
            copyCellLog srcSheet parse fmtF sc sr aCol aRow transpose coerce
              (sc + dc) (sr + dr))) := by
  unfold copy_range_from
  rw [copy_outer_log]
  rfl

lemma copy_log_mem (ws srcSheet : Sheet) (parse : String → Option ℚ)
    (fmtF : ℚ → String) (sc sr ec er aCol aRow : ℕ) (transpose : Bool)
    (coerce : Coerce) (dc dr : ℕ) (s : String)
    (hdc : sc + dc ≤ ec) (hdr : sr + dr ≤ er)
    (hcell : srcSheet.getCell (sc + dc) (sr + dr) = some s) :
    (copyDest aCol aRow sc sr transpose (sc + dc) (sr + dr),
        coerceValue parse fmtF coerce s)
      ∈ (copy_range_from ws srcSheet parse fmtF sc sr ec er aCol aRow
          transpose coerce).2 := by
  rw [copy_range_from_log]
  rw [List.mem_flatMap]
  refine ⟨dc, List.mem_range.mpr (by omega), ?_⟩
  rw [List.mem_flatMap]
  refine ⟨dr, List.mem_range.mpr (by omega), ?_⟩
  unfold copyCellLog
  rw [hcell]
  simp

/-- **C7.** `copy_range_from` maps the source cell at range-relative offset
`(dr, dc)` to destination `(anchorCol + dc, anchorRow + dr)` when
`transpose = false`, and to `(anchorCol + dr, anchorRow + dc)` when
`transpose = true`. -/
theorem copy_range_from_dest_map (ws srcSheet : Sheet)
    (parse : String → Option ℚ) (fmtF : ℚ → String)
    (sc sr ec er aCol aRow : ℕ) (transpose : Bool) (coerce : Coerce)
    (dc dr : ℕ) (s : String)
    (hdc : sc + dc ≤ ec) (hdr : sr + dr ≤ er)
    (hcell : srcSheet.getCell (sc + dc) (sr + dr) = some s) :
    ((if transpose then (aCol + dr, aRow + dc) else (aCol + dc, aRow + dr)),
        coerceValue parse fmtF coerce s)
      ∈ (copy_range_from ws srcSheet parse fmtF sc sr ec er aCol aRow
          transpose coerce).2 := by
  have h := copy_log_mem ws srcSheet parse fmtF sc sr ec er aCol aRow transpose
    coerce dc dr s hdc hdr hcell
  have hd : copyDest aCol aRow sc sr transpose (sc + dc) (sr + dr)
      = if transpose then (aCol + dr, aRow + dc) else (aCol + dc, aRow + dr) := by
    unfold copyDest
    cases transpose <;> simp [Prod.ext_iff] <;> omega
  rwa [hd] at h

/-- Witness for C7: cell `B1` of the 2×2 demo sheet (offset `(dr,dc) = (0,1)`)
lands at `(5 + 0, 10 + 1) = (5, 11)` under `transpose = true`, anchored at
`(col 5, row 10)`. -/
theorem copy_range_from_dest_map_witness :
    ((5, 11), "2") ∈ (copy_range_from ⟨[]⟩ src22 demoParse (fun _ => "")
        1 1 2 2 5 10 true Coerce.None).2 := by
  have h := copy_range_from_dest_map ⟨[]⟩ src22 demoParse (fun _ => "")
    1 1 2 2 5 10 true Coerce.None 1 0 "2" (by norm_num) (by norm_num) (by decide)
  simpa using h

/-- **C8.** Under `coerce = Integer`, a source cell whose text parses writes
the truncated integer's decimal string at its destination (`"3.7"` writes
`"3"`); a cell whose text does not parse writes the empty string there, and
the copy goes on with the remaining cells (the operation is total — it never
fails on such a cell). -/
theorem copy_range_from_integer_coerce (ws srcSheet : Sheet)
    (parse : String → Option ℚ) (fmtF : ℚ → String)
    (sc sr ec er aCol aRow : ℕ) (transpose : Bool) (dc dr : ℕ) (s : String)
    (hdc : sc + dc ≤ ec) (hdr : sr + dr ≤ er)
    (hcell : srcSheet.getCell (sc + dc) (sr + dr) = some s) :
    (∀ q : ℚ, parse s = some q →
      (copyDest aCol aRow sc sr transpose (sc + dc) (sr + dr),
          toString (f64_as_i32 q))
        ∈ (copy_range_from ws srcSheet parse fmtF sc sr ec er aCol aRow
            transpose Coerce.Integer).2) ∧
    (parse s = none →
      (copyDest aCol aRow sc sr transpose (sc + dc) (sr + dr), "")
        ∈ (copy_range_from ws srcSheet parse fmtF sc sr ec er aCol aRow
            transpose Coerce.Integer).2) ∧
    (parse "3.7" = some (37 / 10) →
      coerceValue parse fmtF Coerce.Integer "3.7" = "3") := by
  have h := copy_log_mem ws srcSheet parse fmtF sc sr ec er aCol aRow transpose
    Coerce.Integer dc dr s hdc hdr hcell
  refine ⟨?_, ?_, ?_⟩
  · intro q hq
    have hv : coerceValue parse fmtF Coerce.Integer s = toString (f64_as_i32 q) := by
      simp only [coerceValue, hq]
    rwa [hv] at h
  · intro hq
    have hv : coerceValue parse fmtF Coerce.Integer s = "" := by
      simp only [coerceValue, hq]
    rwa [hv] at h
  · intro hq
    simp only [coerceValue, hq]
    have hfl : Rat.floor (37 / 10 : ℚ) = ⌊(37 / 10 : ℚ)⌋ :=
      (Rat.floor_def' _).trans Rat.floor_def.symm
    have h3 : ⌊(37 / 10 : ℚ)⌋ = 3 := by
      rw [Int.floor_eq_iff]
      norm_num
    have hcast : f64_as_i32 (37 / 10) = 3 := by
      unfold f64_as_i32
      rw [if_pos (by norm_num), hfl, h3]
      norm_num
    rw [hcast]
    decide

/-- Witness for C8: copying `"3.7"` under `Integer` coercion yields `"3"`. -/
theorem copy_range_from_integer_coerce_witness :
    coerceValue demoParse (fun _ => "") Coerce.Integer "3.7" = "3" := by
  have h := copy_range_from_integer_coerce ⟨[]⟩ src37 demoParse (fun _ => "")
    1 1 1 1 1 1 false 0 0 "3.7" (by norm_num) (by norm_num) (by decide)
  exact h.2.2 (by simp [demoParse])

lemma writeSeries_eq (fmtF : ℚ → String) (vals : List RVal) (height : ℕ)
    (mode : Mode) (skipNull : Bool) (curCol curRow idx : ℕ) (name : String)
    (p : Sheet × List Wr) :
    writeSeries fmtF vals height mode skipNull curCol curRow idx name p
      = (⟨p.1.cells ++ (seriesLog fmtF vals height mode skipNull curCol curRow
            idx name).map (fun w => ((w.col, w.row), w.val))⟩,
          p.2 ++ seriesLog fmtF vals height mode skipNull curCol curRow idx name) := by
  unfold writeSeries seriesLog
  generalize List.range height = l
  induction l generalizing p with
  | nil => simp
  | cons i l ih =>
    rw [List.foldl_cons, List.filterMap_cons]
    cases h : writeStepOpt fmtF vals mode skipNull curCol curRow idx name i with
    | none => rw [ih]
    | some w =>
      rw [ih]
      simp [Sheet.setCell]

lemma writeAllCols_eq (fmtF : ℚ → String) (df : Table) (mode : Mode)
    (skipNull : Bool) (curCol curRow : ℕ) (hm : HMap) (ws : Sheet) :
    writeAllCols fmtF df mode skipNull curCol curRow hm ws
      = (⟨ws.cells ++ (colsLog fmtF df mode skipNull curCol curRow hm).map
            (fun w => ((w.col, w.row), w.val))⟩,
          colsLog fmtF df mode skipNull curCol curRow hm) := by
  unfold writeAllCols colsLog
  suffices hgen : ∀ (l : HMap) (p : Sheet × List Wr),
      (l.foldl (fun p entry =>
        match df.column entry.1 with
        | none => p
        | some vals =>
          writeSeries fmtF vals df.height mode skipNull curCol curRow
            entry.2 entry.1 p) p)
        = (⟨p.1.cells ++ (l.flatMap (fun entry =>
              match df.column entry.1 with
              | none => []
              | some vals => seriesLog fmtF vals df.height mode skipNull
                  curCol curRow entry.2 entry.1)).map
                (fun w => ((w.col, w.row), w.val))⟩,
            p.2 ++ l.flatMap (fun entry =>
              match df.column entry.1 with
              | none => []
              | some vals => seriesLog fmtF vals df.height mode skipNull
                  curCol curRow entry.2 entry.1)) by
    rw [hgen hm (ws, [])]
    rfl
  intro l
  induction l with
  | nil => intro p; simp
  | cons entry rest ih =>
    intro p
    rw [List.foldl_cons, List.flatMap_cons]
    cases h : df.column entry.1 with
    | none =>
      simp only [h, ih]
      simp
    | some vals =>
      simp only [h]
      rw [ih, writeSeries_eq]
      simp

lemma seriesLog_mem (fmtF : ℚ → String) (vals : List RVal) (height : ℕ)
    (mode : Mode) (skipNull : Bool) (curCol curRow idx : ℕ) (name : String)
    (w : Wr)
    (hw : w ∈ seriesLog fmtF vals height mode skipNull curCol curRow idx name) :
    w.name = name ∧ ∃ i, i < height ∧
      w.col = (match mode with | Mode.Row => idx | Mode.Column => curCol + i) ∧
      w.row = (match mode with | Mode.Row => curRow + i | Mode.Column => idx) := by
  unfold seriesLog at hw
  rw [List.mem_filterMap] at hw
  obtain ⟨i, hi, hstep⟩ := hw
  rw [List.mem_range] at hi
  unfold writeStepOpt at hstep
  cases mode with
  | Row =>
    simp only at hstep
    split at hstep
    · exact absurd hstep (by simp)
    · rw [Option.some_inj] at hstep
      subst hstep
      exact ⟨rfl, i, hi, rfl, rfl⟩
  | Column =>
    simp only at hstep
    split at hstep
    · exact absurd hstep (by simp)
    · rw [Option.some_inj] at hstep
      subst hstep
      exact ⟨rfl, i, hi, rfl, rfl⟩

lemma colsLog_mem (fmtF : ℚ → String) (df : Table) (mode : Mode)
    (skipNull : Bool) (curCol curRow : ℕ) (hm : HMap) (w : Wr)
    (hw : w ∈ colsLog fmtF df mode skipNull curCol curRow hm) :
    ∃ entry ∈ hm, ∃ vals, df.column entry.1 = some vals ∧
      w ∈ seriesLog fmtF vals df.height mode skipNull curCol curRow
        entry.2 entry.1 := by
  unfold colsLog at hw
  rw [List.mem_flatMap] at hw
  obtain ⟨entry, he, hw⟩ := hw
  cases h : df.column entry.1 with
  | none => rw [h] at hw; exact absurd hw (List.not_mem_nil w)
  | some vals => rw [h] at hw; exact ⟨entry, he, vals, h, hw⟩

lemma add_df_ok_elim (fmtF : ℚ → String) (ws : Sheet) (df : Table)
    (hm : HMap) (mode : Mode) (strict skipNull : Bool) (curCol curRow : ℕ)
    (out : Sheet × List Wr)
    (h : add_df_by_column_name fmtF ws df hm mode strict skipNull curCol curRow
      = Except.ok out) :
    ∃ hm2, extendHeaderMap ws df.names hm strict = Except.ok hm2 ∧
      out.2 = colsLog fmtF df mode skipNull curCol curRow hm2 ∧
      out.1 = truncateSheet
        ⟨ws.cells ++ (colsLog fmtF df mode skipNull curCol curRow hm2).map
          (fun w => ((w.col, w.row), w.val))⟩ mode curCol curRow df.height := by
  unfold add_df_by_column_name at h
  cases hch : checkMissingInDf hm df.names strict with
  | error e => rw [hch] at h; exact absurd h (by simp)
  | ok u =>
    rw [hch] at h
    cases hex : extendHeaderMap ws df.names hm strict with
    | error e => rw [hex] at h; exact absurd h (by simp)
    | ok hm2 =>
      rw [hex] at h
      simp only [writeAllCols_eq, Except.ok.injEq] at h
      refine ⟨hm2, rfl, ?_, ?_⟩
      · rw [← h]
      · rw [← h]

lemma list_foldl_max_le_iff {α : Type} (f : α → ℕ) (l : List α) (a b : ℕ) :
    l.foldl (fun m x => max m (f x)) a ≤ b ↔ a ≤ b ∧ ∀ x ∈ l, f x ≤ b := by
  induction l generalizing a with
  | nil => simp
  | cons x l ih =>
    rw [List.foldl_cons, ih]
    simp only [List.forall_mem_cons, max_le_iff]
    tauto

lemma Sheet.highestRow_ge (ws : Sheet) (p : (ℕ × ℕ) × String)
    (hp : p ∈ ws.cells) : p.1.2 ≤ ws.highestRow := by
  have h := (list_foldl_max_le_iff (fun q : (ℕ × ℕ) × String => q.1.2)
    ws.cells 0 ws.highestRow).mp (le_of_eq rfl)
  exact h.2 p hp

lemma Sheet.highestRow_le (ws : Sheet) (b : ℕ)
    (hall : ∀ p ∈ ws.cells, p.1.2 ≤ b) : ws.highestRow ≤ b :=
  (list_foldl_max_le_iff (fun q : (ℕ × ℕ) × String => q.1.2) ws.cells 0 b).mpr
    ⟨Nat.zero_le _, hall⟩

lemma Sheet.highestColumn_ge (ws : Sheet) (p : (ℕ × ℕ) × String)
    (hp : p ∈ ws.cells) : p.1.1 ≤ ws.highestColumn := by
  have h := (list_foldl_max_le_iff (fun q : (ℕ × ℕ) × String => q.1.1)
    ws.cells 0 ws.highestColumn).mp (le_of_eq rfl)
  exact h.2 p hp

lemma Sheet.highestColumn_le (ws : Sheet) (b : ℕ)
    (hall : ∀ p ∈ ws.cells, p.1.1 ≤ b) : ws.highestColumn ≤ b :=
  (list_foldl_max_le_iff (fun q : (ℕ × ℕ) × String => q.1.1) ws.cells 0 b).mpr
    ⟨Nat.zero_le _, hall⟩

lemma Sheet.getCell_some_bounds (ws : Sheet) (c r : ℕ) (v : String)
    (h : ws.getCell c r = some v) :
    c ≤ ws.highestColumn ∧ r ≤ ws.highestRow := by
  unfold Sheet.getCell at h
  obtain ⟨p, hfind, hv⟩ := Option.map_eq_some'.mp h
  have hmem := List.mem_of_find?_eq_some hfind
  have heq : p.1 = (c, r) := by simpa using List.find?_some hfind
  rw [List.mem_reverse] at hmem
  constructor
  · have := ws.highestColumn_ge p hmem
    rw [heq] at this
    exact this
  · have := ws.highestRow_ge p hmem
    rw [heq] at this
    exact this

lemma Sheet.getCell_eq_none_of_row_gt (ws : Sheet) (c r : ℕ)
    (h : ws.highestRow < r) : ws.getCell c r = none := by
  cases hg : ws.getCell c r with
  | none => rfl
  | some v =>
    have := ws.getCell_some_bounds c r v hg
    omega

lemma Sheet.getCell_eq_none_of_col_gt (ws : Sheet) (c r : ℕ)
    (h : ws.highestColumn < c) : ws.getCell c r = none := by
  cases hg : ws.getCell c r with
  | none => rfl
  | some v =>
    have := ws.getCell_some_bounds c r v hg
    omega

/-- The index-direction codec round trip (also for `n = 0`, which encodes and
decodes as the empty string). -/
lemma col_roundtrip_index (n : ℕ) :
    excel_col_to_index (index_to_excel_col n) = n % 2 ^ 32 := by
  rw [index_to_excel_col, excel_col_to_index_eq]
  rw [(rfl : (String.mk (toColChars n).reverse).data = (toColChars n).reverse)]
  rw [List.reverse_reverse, colValR_toColChars n]

lemma col_roundtrip_index_le (n : ℕ) :
    excel_col_to_index (index_to_excel_col n) ≤ n := by
  rw [col_roundtrip_index]
  exact Nat.mod_le _ _

lemma truncateSheet_bound_row (ws : Sheet) (curCol curRow H : ℕ)
    (hcr : 1 ≤ curRow) :
    (truncateSheet ws Mode.Row curCol curRow H).highestRow + 1 ≤ curRow + H := by
  unfold truncateSheet
  by_cases hle : curRow + H ≤ ws.highestRow
  · simp only [if_pos hle]
    have hb : ∀ p ∈ (ws.removeRows (curRow + H)
        (ws.highestRow - (curRow + H) + 1)).cells, p.1.2 ≤ curRow + H - 1 := by
      intro p hp
      unfold Sheet.removeRows at hp
      rw [List.mem_filterMap] at hp
      obtain ⟨q, hq, hqe⟩ := hp
      have hqr := ws.highestRow_ge q hq
      by_cases h1 : q.1.2 < curRow + H
      · rw [if_pos h1, Option.some_inj] at hqe
        subst hqe
        omega
      · rw [if_neg h1] at hqe
        by_cases h2 : q.1.2 < curRow + H + (ws.highestRow - (curRow + H) + 1)
        · rw [if_pos h2] at hqe
          exact absurd hqe (by simp)
        · omega
    have hH := Sheet.highestRow_le _ _ hb
    omega
  · simp only [if_neg hle]
    omega

lemma truncateSheet_bound_col (ws : Sheet) (curCol curRow H : ℕ)
    (hcc : 1 ≤ curCol) :
    (truncateSheet ws Mode.Column curCol curRow H).highestColumn + 1
      ≤ curCol + H := by
  unfold truncateSheet
  by_cases hle : curCol + H ≤ ws.highestColumn
  · simp only [if_pos hle]
    have hstart : excel_col_to_index (index_to_excel_col (curCol + H))
        ≤ curCol + H := col_roundtrip_index_le _
    have hb : ∀ p ∈ (ws.removeColumns
        (excel_col_to_index (index_to_excel_col (curCol + H)))
        (ws.highestColumn - (curCol + H) + 1)).cells, p.1.1 ≤ curCol + H - 1 := by
      intro p hp
      unfold Sheet.removeColumns at hp
      rw [List.mem_filterMap] at hp
      obtain ⟨q, hq, hqe⟩ := hp
      have hqc := ws.highestColumn_ge q hq
      by_cases h1 : q.1.1 < excel_col_to_index (index_to_excel_col (curCol + H))
      · rw [if_pos h1, Option.some_inj] at hqe
        subst hqe
        omega
      · rw [if_neg h1] at hqe
        by_cases h2 : q.1.1 < excel_col_to_index (index_to_excel_col (curCol + H))
            + (ws.highestColumn - (curCol + H) + 1)
        · rw [if_pos h2] at hqe
          exact absurd hqe (by simp)
        · rw [if_neg h2, Option.some_inj] at hqe
          subst hqe
          show q.1.1 - (ws.highestColumn - (curCol + H) + 1) ≤ curCol + H - 1
          omega
    have hH := Sheet.highestColumn_le _ _ hb
    omega
  · simp only [if_neg hle]
    omega

/-- **C3.** After a successful `add_df_by_column_name` anchored at
`(curCol, curRow)` with a Table of height `H`, the sheet's extent along the
write axis does not exceed `anchor + H - 1` (stated as `extent + 1 ≤ anchor + H`
to avoid truncated subtraction), and every cell strictly beyond `anchor + H - 1`
along that axis is gone. -/
theorem add_df_truncates (fmtF : ℚ → String) (ws : Sheet) (df : Table)
    (hm : HMap) (mode : Mode) (strict skipNull : Bool) (curCol curRow : ℕ)
    (out : Sheet × List Wr) (hcc : 1 ≤ curCol) (hcr : 1 ≤ curRow)
    (h : add_df_by_column_name fmtF ws df hm mode strict skipNull curCol curRow
      = Except.ok out) :
    match mode with
    | Mode.Row => out.1.highestRow + 1 ≤ curRow + df.height ∧
        ∀ c r, curRow + df.height ≤ r → out.1.getCell c r = none
    | Mode.Column => out.1.highestColumn + 1 ≤ curCol + df.height ∧
        ∀ c r, curCol + df.height ≤ c → out.1.getCell c r = none := by
  obtain ⟨hm2, hex, hlog, hsheet⟩ := add_df_ok_elim fmtF ws df hm mode strict
    skipNull curCol curRow out h
  cases mode with
  | Row =>
    have hb := truncateSheet_bound_row
      ⟨ws.cells ++ (colsLog fmtF df Mode.Row skipNull curCol curRow hm2).map
        (fun w => ((w.col, w.row), w.val))⟩ curCol curRow df.height hcr
    rw [← hsheet] at hb
    refine ⟨hb, fun c r hr => ?_⟩
    exact out.1.getCell_eq_none_of_row_gt c r (by omega)
  | Column =>
    have hb := truncateSheet_bound_col
      ⟨ws.cells ++ (colsLog fmtF df Mode.Column skipNull curCol curRow hm2).map
        (fun w => ((w.col, w.row), w.val))⟩ curCol curRow df.height hcc
    rw [← hsheet] at hb
    refine ⟨hb, fun c r hc => ?_⟩
    exact out.1.getCell_eq_none_of_col_gt c r (by omega)

lemma fill_with_row_nooverwrite_eq (fmtF : ℚ → String) (ws : Sheet)
    (df : Table) (strict skipNull : Bool) (hc hr : ℕ) :
    fill_with fmtF ws df Mode.Row strict skipNull false hc hr
      = add_df_by_column_name fmtF ws df (get_header_map ws hc hr Mode.Row)
          Mode.Row strict skipNull hc (ws.highestRow + 1) := rfl

/-- **C1.** In Row mode with `overwrite = false`, every data-cell write of a
successful `fill_with` lands in rows `[R + 1, R + H]`, where `R` is the
sheet's pre-existing highest row and `H` the Table's height; in particular no
cell at row `≤ R` is written. -/
theorem fill_with_row_append_bounds (fmtF : ℚ → String) (ws : Sheet)
    (df : Table) (strict skipNull : Bool) (hc hr : ℕ) (out : Sheet × List Wr)
    (h : fill_with fmtF ws df Mode.Row strict skipNull false hc hr
      = Except.ok out) :
    ∀ w ∈ out.2, ws.highestRow + 1 ≤ w.row ∧ w.row ≤ ws.highestRow + df.height := by
  rw [fill_with_row_nooverwrite_eq] at h
  obtain ⟨hm2, hex, hlog, hsheet⟩ := add_df_ok_elim _ _ _ _ _ _ _ _ _ _ h
  intro w hw
  rw [hlog] at hw
  obtain ⟨entry, he, vals, hcol, hws⟩ := colsLog_mem _ _ _ _ _ _ _ _ hw
  obtain ⟨hname, i, hi, hcoleq, hroweq⟩ := seriesLog_mem _ _ _ _ _ _ _ _ _ _ hws
  simp only at hroweq
  omega

lemma hmContains_iff (m : HMap) (k : String) :
    hmContains m k = true ↔ ∃ p ∈ m, p.1 = k := by
  unfold hmContains
  rw [List.any_eq_true]
  simp only [beq_iff_eq]

lemma hmContains_of_mem (m : HMap) (p : String × ℕ) (hp : p ∈ m) :
    hmContains m p.1 = true :=
  (hmContains_iff m p.1).mpr ⟨p, hp, rfl⟩

lemma checkMissingInDf_strict_error (hm : HMap) (dfH : List String)
    (hex : ∃ p ∈ hm, dfH.contains p.1 = false) :
    ∃ e, checkMissingInDf hm dfH true = Except.error e := by
  induction hm with
  | nil =>
    obtain ⟨p, hp, _⟩ := hex
    exact absurd hp (List.not_mem_nil p)
  | cons q rest ih =>
    obtain ⟨k, v⟩ := q
    by_cases hk : dfH.contains k = false
    · have he : checkMissingInDf ((k, v) :: rest) dfH true
          = Except.error ("Header '" ++ k
            ++ "' in the ExcelTemplate is missing in the DataFrame.") := by
        unfold checkMissingInDf
        rw [if_pos (by rw [hk]; rfl)]
      exact ⟨_, he⟩
    · rw [Bool.not_eq_false] at hk
      obtain ⟨p, hp, hc⟩ := hex
      rcases List.mem_cons.mp hp with hpq | hprest
      · rw [hpq] at hc
        rw [hc] at hk
        cases hk
      · obtain ⟨e, he⟩ := ih ⟨p, hprest, hc⟩
        refine ⟨e, ?_⟩
        unfold checkMissingInDf
        rw [if_neg (by rw [hk]; simp)]
        exact he

lemma extendHeaderMap_strict_error (ws : Sheet) (dfH : List String) (hm : HMap)
    (hex : ∃ c ∈ dfH, hmContains hm c = false) :
    ∃ e, extendHeaderMap ws dfH hm true = Except.error e := by
  induction dfH with
  | nil =>
    obtain ⟨c, hc, _⟩ := hex
    exact absurd hc (List.not_mem_nil c)
  | cons d rest ih =>
    by_cases hd : hmContains hm d = false
    · have he : extendHeaderMap ws (d :: rest) hm true
          = Except.error ("Header '" ++ d
            ++ "' is missing in the ExcelTemplate.") := by
        unfold extendHeaderMap
        rw [if_pos (by rw [hd]; rfl), if_pos rfl]
      exact ⟨_, he⟩
    · rw [Bool.not_eq_false] at hd
      obtain ⟨c, hc, hcf⟩ := hex
      rcases List.mem_cons.mp hc with hcd | hcrest
      · rw [hcd] at hcf
        rw [hcf] at hd
        cases hd
      · obtain ⟨e, he⟩ := ih ⟨c, hcrest, hcf⟩
        refine ⟨e, ?_⟩
        unfold extendHeaderMap
        rw [if_neg (by rw [hd]; simp)]
        exact he

lemma add_df_strict_error (fmtF : ℚ → String) (ws : Sheet) (df : Table)
    (hm : HMap) (skipNull : Bool) (mode : Mode) (curCol curRow : ℕ)
    (hfail : (∃ p ∈ hm, df.names.contains p.1 = false)
      ∨ (∃ c ∈ df.names, hmContains hm c = false)) :
    ∃ e, add_df_by_column_name fmtF ws df hm mode true skipNull curCol curRow
      = Except.error e := by
  unfold add_df_by_column_name
  cases hch : checkMissingInDf hm df.names true with
  | error e => exact ⟨e, rfl⟩
  | ok u =>
    cases hex : extendHeaderMap ws df.names hm true with
    | error e => exact ⟨e, rfl⟩
    | ok hm2 =>
      exfalso
      rcases hfail with hleft | hright
      · obtain ⟨e, he⟩ := checkMissingInDf_strict_error hm df.names hleft
        rw [hch] at he
        cases he
      · obtain ⟨e, he⟩ := extendHeaderMap_strict_error ws df.names hm hright
        rw [hex] at he
        cases he

/-- **C4.** With `overwrite = true` and `strict = true`, `fill_with` fails
whenever the Table's set of column names does not equal the set of names read
from the sheet's header line (a name missing on either side forces the
failure). -/
theorem fill_with_strict_mismatch (fmtF : ℚ → String) (ws : Sheet)
    (df : Table) (skipNull : Bool) (mode : Mode) (hc hr : ℕ)
    (hne : ¬ ∀ name, name ∈ df.names
      ↔ hmContains (get_header_map ws hc hr mode) name = true) :
    ∃ e, fill_with fmtF ws df mode true skipNull true hc hr
      = Except.error e := by
  push_neg at hne
  obtain ⟨name, hname⟩ := hne
  have hfail : (∃ p ∈ get_header_map ws hc hr mode, df.names.contains p.1 = false)
      ∨ (∃ c ∈ df.names, hmContains (get_header_map ws hc hr mode) c = false) := by
    rcases hname with ⟨hmem, hncon⟩ | ⟨hnmem, hcon⟩
    · exact Or.inr ⟨name, hmem, Bool.eq_false_iff.mpr hncon⟩
    · left
      obtain ⟨p, hp, hp1⟩ := (hmContains_iff _ _).mp hcon
      refine ⟨p, hp, ?_⟩
      rw [hp1]
      cases hcc : List.contains df.names name with
      | false => rfl
      | true =>
        rw [List.contains_eq_any_beq, List.any_eq_true] at hcc
        obtain ⟨x, hx, hxe⟩ := hcc
        rw [beq_iff_eq] at hxe
        rw [← hxe] at hx
        exact absurd hx hnmem
  cases mode with
  | Row => exact add_df_strict_error fmtF ws df _ skipNull Mode.Row hc (hr + 1) hfail
  | Column => exact add_df_strict_error fmtF ws df _ skipNull Mode.Column (hc + 1) hr hfail

lemma hmInsert_not_contains (m : HMap) (k : String) (v : ℕ)
    (h : hmContains m k = false) : hmInsert m k v = m ++ [(k, v)] := by
  unfold hmInsert
  unfold hmContains at h
  rw [if_neg (by rw [h]; simp)]

lemma extendHeaderMap_lenient_entries (ws : Sheet) (dfH : List String)
    (hm hm2 : HMap)
    (h : extendHeaderMap ws dfH hm false = Except.ok hm2) :
    ∀ p ∈ hm2, p ∈ hm ∨ p.2 = ws.highestColumn + 1 := by
  induction dfH generalizing hm with
  | nil =>
    unfold extendHeaderMap at h
    rw [Except.ok.injEq] at h
    subst h
    exact fun p hp => Or.inl hp
  | cons c rest ih =>
    unfold extendHeaderMap at h
    by_cases hc : hmContains hm c = false
    · rw [if_pos (by rw [hc]; rfl)] at h
      have hrec := ih (hmInsert hm c (ws.highestColumn + 1)) h
      intro p hp
      rcases hrec p hp with hin | hval
      · rw [hmInsert_not_contains hm c _ hc] at hin
        rcases List.mem_append.mp hin with hin2 | hin2
        · exact Or.inl hin2
        · right
          rcases List.mem_singleton.mp hin2 with rfl
          rfl
      · exact Or.inr hval
    · rw [Bool.not_eq_false] at hc
      rw [if_neg (by rw [hc]; simp)] at h
      exact ih hm h

lemma fill_with_row_eq (fmtF : ℚ → String) (ws : Sheet) (df : Table)
    (strict skipNull overwrite : Bool) (hc hr : ℕ) :
    fill_with fmtF ws df Mode.Row strict skipNull overwrite hc hr
      = add_df_by_column_name fmtF ws df (get_header_map ws hc hr Mode.Row)
          Mode.Row strict skipNull hc
          (if overwrite then hr + 1 else ws.highestRow + 1) := rfl

lemma fill_with_col_eq (fmtF : ℚ → String) (ws : Sheet) (df : Table)
    (strict skipNull overwrite : Bool) (hc hr : ℕ) :
    fill_with fmtF ws df Mode.Column strict skipNull overwrite hc hr
      = add_df_by_column_name fmtF ws df (get_header_map ws hc hr Mode.Column)
          Mode.Column strict skipNull
          (if overwrite then hc + 1 else ws.highestColumn + 1) hr := rfl

/-- **C10.** In a non-strict fill, every Table column absent from the
sheet's header map is assigned the single destination index
`highestColumn + 1` of the pre-fill sheet; in Row mode that index is the
column of each of its writes, in Column mode the row (the source inserts
`get_highest_column() + 1` regardless of mode). So any two such columns
write to the same cells and only one of them survives in the sheet. -/
theorem fill_with_missing_columns_alias (fmtF : ℚ → String) (ws : Sheet)
    (df : Table) (mode : Mode) (skipNull overwrite : Bool) (hc hr : ℕ)
    (out : Sheet × List Wr)
    (h : fill_with fmtF ws df mode false skipNull overwrite hc hr
      = Except.ok out) :
    (∀ w ∈ out.2, hmContains (get_header_map ws hc hr mode) w.name = false →
      (match mode with | Mode.Row => w.col | Mode.Column => w.row)
        = ws.highestColumn + 1) ∧
    (∀ w ∈ out.2, ∀ w' ∈ out.2,
      hmContains (get_header_map ws hc hr mode) w.name = false →
      hmContains (get_header_map ws hc hr mode) w'.name = false →
      (match mode with
        | Mode.Row => w.row = w'.row
        | Mode.Column => w.col = w'.col) →
      w.col = w'.col ∧ w.row = w'.row) := by
  cases mode with
  | Row =>
    rw [fill_with_row_eq] at h
    obtain ⟨hm2, hex, hlog, hsheet⟩ := add_df_ok_elim _ _ _ _ _ _ _ _ _ _ h
    have part1 : ∀ w ∈ out.2,
        hmContains (get_header_map ws hc hr Mode.Row) w.name = false →
        w.col = ws.highestColumn + 1 := by
      intro w hw hmiss
      rw [hlog] at hw
      obtain ⟨entry, he, vals, hcol, hws⟩ := colsLog_mem _ _ _ _ _ _ _ _ hw
      obtain ⟨hname, i, hi, hcoleq, hroweq⟩ := seriesLog_mem _ _ _ _ _ _ _ _ _ _ hws
      simp only at hcoleq
      rcases extendHeaderMap_lenient_entries ws df.names _ hm2 hex entry he with
        hin | hval
      · have hcontra := hmContains_of_mem _ entry hin
        rw [hname] at hmiss
        rw [hmiss] at hcontra
        cases hcontra
      · rw [hcoleq, hval]
    refine ⟨part1, fun w hw w' hw' hm1 hm2' hrow => ?_⟩
    rw [part1 w hw hm1, part1 w' hw' hm2']
    exact ⟨rfl, hrow⟩
  | Column =>
    rw [fill_with_col_eq] at h
    obtain ⟨hm2, hex, hlog, hsheet⟩ := add_df_ok_elim _ _ _ _ _ _ _ _ _ _ h
    have part1 : ∀ w ∈ out.2,
        hmContains (get_header_map ws hc hr Mode.Column) w.name = false →
        w.row = ws.highestColumn + 1 := by
      intro w hw hmiss
      rw [hlog] at hw
      obtain ⟨entry, he, vals, hcol, hws⟩ := colsLog_mem _ _ _ _ _ _ _ _ hw
      obtain ⟨hname, i, hi, hcoleq, hroweq⟩ := seriesLog_mem _ _ _ _ _ _ _ _ _ _ hws
      simp only at hroweq
      rcases extendHeaderMap_lenient_entries ws df.names _ hm2 hex entry he with
        hin | hval
      · have hcontra := hmContains_of_mem _ entry hin
        rw [hname] at hmiss
        rw [hmiss] at hcontra
        cases hcontra
      · rw [hroweq, hval]
    refine ⟨part1, fun w hw w' hw' hm1 hm2' hcols => ?_⟩
    exact ⟨hcols, by rw [part1 w hw hm1, part1 w' hw' hm2']⟩

lemma rangeIncl_mem (a b i : ℕ) : i ∈ rangeIncl a b ↔ a ≤ i ∧ i ≤ b := by
  unfold rangeIncl
  rw [List.mem_map]
  constructor
  · rintro ⟨j, hj, rfl⟩
    rw [List.mem_range] at hj
    omega
  · rintro ⟨h1, h2⟩
    exact ⟨i - a, List.mem_range.mpr (by omega), by omega⟩

lemma hmContains_insert (m : HMap) (k : String) (v : ℕ) (name : String) :
    hmContains (hmInsert m k v) name = (hmContains m name || (k == name)) := by
  unfold hmInsert hmContains
  by_cases hc : (m.any fun p => p.1 == k) = true
  · rw [if_pos hc, List.any_map]
    have hfun : ((fun p : String × ℕ => p.1 == name)
          ∘ (fun p : String × ℕ => if p.1 == k then (k, v) else p))
        = fun p : String × ℕ => p.1 == name := by
      funext p
      by_cases hk : (p.1 == k) = true
      · simp only [Function.comp_apply, if_pos hk]
        rw [beq_iff_eq] at hk
        rw [hk]
      · simp only [Function.comp_apply, if_neg hk]
    rw [hfun]
    by_cases hkn : (k == name) = true
    · rw [hkn, Bool.or_true]
      rw [beq_iff_eq] at hkn
      subst hkn
      exact hc
    · rw [Bool.eq_false_iff.mpr hkn, Bool.or_false]
  · rw [if_neg hc, List.any_append]
    simp

lemma hmContains_foldl_insert (l : List ℕ) (g : ℕ → String) (gi : ℕ → ℕ)
    (m0 : HMap) (name : String) :
    hmContains (l.foldl (fun m i => hmInsert m (g i) (gi i)) m0) name = true
      ↔ hmContains m0 name = true ∨ ∃ i ∈ l, g i = name := by
  induction l generalizing m0 with
  | nil => simp
  | cons j l ih =>
    rw [List.foldl_cons, ih, hmContains_insert]
    constructor
    · rintro (h0 | hex)
      · rw [Bool.or_eq_true] at h0
        rcases h0 with h0 | hj
        · exact Or.inl h0
        · exact Or.inr ⟨j, List.mem_cons_self _ _, by rwa [beq_iff_eq] at hj⟩
      · obtain ⟨i, hi, hgi⟩ := hex
        exact Or.inr ⟨i, List.mem_cons_of_mem _ hi, hgi⟩
    · rintro (h0 | ⟨i, hi, hgi⟩)
      · exact Or.inl (by rw [Bool.or_eq_true]; exact Or.inl h0)
      · rcases List.mem_cons.mp hi with heq | hil
        · refine Or.inl ?_
          rw [Bool.or_eq_true]
          right
          rw [beq_iff_eq, ← heq]
          exact hgi
        · exact Or.inr ⟨i, hil, hgi⟩

lemma hmContains_header_fold_row (ws : Sheet) (hr : ℕ) (name : String)
    (l : List ℕ) (m0 : HMap) :
    hmContains (l.foldl (fun m i => hmInsert m (ws.getValue i hr) i) m0) name
        = true
      ↔ hmContains m0 name = true ∨ ∃ i ∈ l, ws.getValue i hr = name :=
  hmContains_foldl_insert l (fun i => ws.getValue i hr) (fun i => i) m0 name

lemma hmContains_header_fold_col (ws : Sheet) (hc : ℕ) (name : String)
    (l : List ℕ) (m0 : HMap) :
    hmContains (l.foldl (fun m i => hmInsert m (ws.getValue hc i) hc) m0) name
        = true
      ↔ hmContains m0 name = true ∨ ∃ i ∈ l, ws.getValue hc i = name :=
  hmContains_foldl_insert l (fun i => ws.getValue hc i) (fun _ => hc) m0 name

/-- **C2 (amended).** The header map's keys are exactly the string values of
the cells along the header line from the header location's own index (not
from index 1) up to the worksheet's highest column (Row mode) or highest row
(Column mode). -/
theorem get_header_map_keys (ws : Sheet) (hc hr : ℕ) (mode : Mode)
    (name : String) :
    hmContains (get_header_map ws hc hr mode) name = true
      ↔ ∃ i, (match mode with | Mode.Row => hc | Mode.Column => hr) ≤ i
          ∧ i ≤ (match mode with
              | Mode.Row => ws.highestColumn | Mode.Column => ws.highestRow)
          ∧ ws.getValue (match mode with | Mode.Row => i | Mode.Column => hc)
              (match mode with | Mode.Row => hr | Mode.Column => i) = name := by
  cases mode with
  | Row =>
    have h := hmContains_header_fold_row ws hr name
      (rangeIncl hc ws.highestColumn) []
    simp only [hmContains, List.any_nil, Bool.false_eq_true, false_or,
      rangeIncl_mem] at h
    constructor
    · intro hcon
      obtain ⟨i, ⟨h1, h2⟩, h3⟩ := h.mp hcon
      exact ⟨i, h1, h2, h3⟩
    · rintro ⟨i, h1, h2, h3⟩
      exact h.mpr ⟨i, ⟨h1, h2⟩, h3⟩
  | Column =>
    have h := hmContains_header_fold_col ws hc name
      (rangeIncl hr ws.highestRow) []
    simp only [hmContains, List.any_nil, Bool.false_eq_true, false_or,
      rangeIncl_mem] at h
    constructor
    · intro hcon
      obtain ⟨i, ⟨h1, h2⟩, h3⟩ := h.mp hcon
      exact ⟨i, h1, h2, h3⟩
    · rintro ⟨i, h1, h2, h3⟩
      exact h.mpr ⟨i, ⟨h1, h2⟩, h3⟩

/-- Counterexample to C2 as stated: with the header location at column 2 of
row 1, index 1 lies in `[1, highestColumn]` and holds `"X"`, yet `"X"` is not
a key of the built header map — the scan starts at the header location's
index, not at index 1. -/
theorem get_header_map_start_counterexample :
    demoHeaderSheet.getValue 1 1 = "X"
      ∧ (1 : ℕ) ≤ demoHeaderSheet.highestColumn
      ∧ hmContains (get_header_map demoHeaderSheet 2 1 Mode.Row) "X" = false := by
  decide

/-- Witness for C1: in the example fill the write of `"Ann"` lands at row
`2 = R + 1`, within `[R + 1, R + H]`. -/
theorem fill_with_row_append_bounds_witness :
    wsC1.highestRow + 1 ≤ 2 ∧ 2 ≤ wsC1.highestRow + dfC1.height :=
  fill_with_row_append_bounds fmt0 wsC1 dfC1 false false 1 1
    (⟨[((1, 1), "Name"), ((1, 2), "Ann"), ((1, 3), "Bo")]⟩,
      [⟨"Name", 1, 2, "Ann"⟩, ⟨"Name", 1, 3, "Bo"⟩]) rfl
    ⟨"Name", 1, 2, "Ann"⟩ (by decide)

/-- Witness for C3: anchored at row 2 with height 1, the run leaves extent
`2 ≤ 2 + 1 - 1` and no cell at row `≥ 3` (the stale row 5 is gone). -/
theorem add_df_truncates_witness :
    (⟨[((1, 1), "H"), ((1, 2), "x")]⟩ : Sheet).highestRow + 1 ≤ 2 + dfC3.height ∧
    ∀ c r, 2 + dfC3.height ≤ r →
      (⟨[((1, 1), "H"), ((1, 2), "x")]⟩ : Sheet).getCell c r = none :=
  add_df_truncates fmt0 wsC3 dfC3 [("H", 1)] Mode.Row false false 1 2
    (⟨[((1, 1), "H"), ((1, 2), "x")]⟩, [⟨"H", 1, 2, "x"⟩])
    (by norm_num) (by norm_num) rfl

/-- Witness for C4: the strict overwrite fill over mismatched names fails. -/
theorem fill_with_strict_mismatch_witness :
    ∃ e, fill_with fmt0 wsC4 dfC4 Mode.Row true false true 1 1
      = Except.error e :=
  fill_with_strict_mismatch fmt0 wsC4 dfC4 false Mode.Row 1 1 (by
    intro hall
    have h := (hall "X").mp (by decide)
    revert h
    decide)

/-- Witness for C10: the write of missing column `"B"` lands at column
`highestColumn + 1 = 2` (as does `"C"`'s, onto the same cell). -/
theorem fill_with_missing_columns_alias_witness :
    (⟨"B", 2, 2, "b0"⟩ : Wr).col = wsC10.highestColumn + 1 := by
  have h := fill_with_missing_columns_alias fmt0 wsC10 dfC10 Mode.Row false
    false 1 1
    (⟨[((1, 1), "A"), ((2, 2), "b0"), ((2, 2), "c0")]⟩,
      [⟨"B", 2, 2, "b0"⟩, ⟨"C", 2, 2, "c0"⟩]) rfl
  exact h.1 ⟨"B", 2, 2, "b0"⟩ (by decide) (by decide)

end EzExcel
